import Mathlib

/-!
Verification of the mancala single-turn search program.

The program models a 6-bin, 2-side mancala variant: a board holds two sides
(6 bins and a store each), a move sows the stones of a chosen bin one by one
around a circular 13-slot view (my 6 bins, my store, the opponent's 6 bins),
chains whenever the last stone lands in a non-empty bin, captures the opposite
bin when the last stone lands in a previously empty own bin, and grants a bonus
move when it lands in the store.  A search tree enumerates all chains of bonus
moves and a ranker sorts the terminal boards by banked score.

The definitions below are a shallow embedding of the Rust source
(`src/main.rs`): stone counts become `Nat`, the two fixed-size arrays become
functions out of `Fin 6` and `Fin 2`, in-place mutation becomes explicit state
passing, and the `u8` flat index becomes a `Nat` on which all arithmetic is
taken `% 13` exactly as in the source.
-/

/-- The six bin identities, `enum Bin` in the source. -/
inductive Bin where
  | A | B | C | D | E | F
deriving DecidableEq, Repr

/-- `Bin as u8`: the ordinal of a bin. -/
def Bin.toNat : Bin → Nat
  | .A => 0
  | .B => 1
  | .C => 2
  | .D => 3
  | .E => 4
  | .F => 5

/-- `Bin::ALL`. -/
def Bin.ALL : List Bin := [.A, .B, .C, .D, .E, .F]

/-- `TryFrom<u8> for Bin`: `Bin::ALL.get(v).copied().ok_or(())`. -/
def Bin.tryFrom (v : Nat) : Option Bin := Bin.ALL[v]?

/-- `struct BoardSide`: six bins and a store (`mancala`). -/
structure BoardSide where
  bins : Fin 6 → Nat
  mancala : Nat

/-- Equality of sides is decided by comparing the six bin counts and the
store, index by index, so that the kernel can evaluate it. -/
instance : DecidableEq BoardSide := fun s t =>
  decidable_of_iff (s.bins 0 = t.bins 0 ∧ s.bins 1 = t.bins 1 ∧
      s.bins 2 = t.bins 2 ∧ s.bins 3 = t.bins 3 ∧ s.bins 4 = t.bins 4 ∧
      s.bins 5 = t.bins 5 ∧ s.mancala = t.mancala)
    (by
      cases s
      cases t
      simp only [BoardSide.mk.injEq]
      constructor
      · rintro ⟨h0, h1, h2, h3, h4, h5, hm⟩
        refine ⟨funext fun i => ?_, hm⟩
        fin_cases i <;> assumption
      · rintro ⟨hb, hm⟩
        subst hb
        exact ⟨rfl, rfl, rfl, rfl, rfl, rfl, hm⟩)

/-- `BoardSide::new`. -/
def BoardSide.new (startWith : Nat) : BoardSide := ⟨fun _ => startWith, 0⟩

/-- `struct Board`: side 0 is the current player, side 1 the opponent. -/
structure Board where
  sides : Fin 2 → BoardSide

/-- Equality of boards is decided by comparing the two sides. -/
instance : DecidableEq Board := fun a b =>
  decidable_of_iff (a.sides 0 = b.sides 0 ∧ a.sides 1 = b.sides 1)
    (by
      cases a
      cases b
      simp only [Board.mk.injEq]
      constructor
      · rintro ⟨h0, h1⟩
        exact funext fun j => by fin_cases j <;> assumption
      · rintro rfl
        exact ⟨rfl, rfl⟩)

/-- `Board::new`. -/
def Board.new (startWith : Nat) : Board := ⟨fun _ => BoardSide.new startWith⟩

/-- `enum MoveResult`. -/
inductive MoveResult where
  | GoAgain
  | TurnOver
deriving DecidableEq, Repr

/-- `enum FlatIndexKind`.  The payloads are `Fin 6`, carrying the array bound
that the source's range patterns (`0..=5`, `7..=12`) guarantee. -/
inductive FlatIndexKind where
  | MyBins : Fin 6 → FlatIndexKind
  | MyMancala : FlatIndexKind
  | TheirBins : Fin 6 → FlatIndexKind
deriving DecidableEq, Repr

namespace FlatIndex

/-- `From<Bin> for FlatIndex`. -/
def ofBin (b : Bin) : Nat := b.toNat

/-- `FlatIndex::step`: `self.0 += 1; self.0 %= 13`. -/
def step (v : Nat) : Nat := (v + 1) % 13

/-- `FlatIndex::opposite`: `Self(12 - self.0)`. -/
def opposite (v : Nat) : Nat := 12 - v

/-- `FlatIndex::kind`.  The source's `_ => unreachable!()` arm (values above
12) is modelled as `none`. -/
def kind (v : Nat) : Option FlatIndexKind :=
  if h : v ≤ 5 then some (.MyBins ⟨v, by omega⟩)
  else if v = 6 then some .MyMancala
  else if h2 : v ≤ 12 then some (.TheirBins ⟨v - 7, by omega⟩)
  else none

theorem kind_lt6 {v : Nat} (h : v ≤ 5) :
    kind v = some (.MyBins ⟨v, by omega⟩) := by
  unfold kind
  rw [dif_pos h]

theorem kind_six : kind 6 = some .MyMancala := rfl

theorem kind_their {v : Nat} (h1 : 7 ≤ v) (h2 : v ≤ 12) :
    kind v = some (.TheirBins ⟨v - 7, by omega⟩) := by
  unfold kind
  rw [dif_neg (by omega), if_neg (by omega), dif_pos h2]

theorem kind_ge13 {v : Nat} (h : 13 ≤ v) : kind v = none := by
  unfold kind
  rw [dif_neg (by omega), if_neg (by omega), dif_neg (by omega)]

theorem kind_isSome {v : Nat} (h : v ≤ 12) : (kind v).isSome := by
  rcases (by omega : v ≤ 5 ∨ v = 6 ∨ (7 ≤ v ∧ v ≤ 12)) with h' | h' | ⟨h1, h2⟩
  · rw [kind_lt6 h']; rfl
  · subst h'; rfl
  · rw [kind_their h1 h2]; rfl

end FlatIndex

/-- Reading a board slot through the flat circular index
(`impl Index<FlatIndex> for Board`).  The unreachable arm reads 0. -/
def Board.getFlat (b : Board) (v : Nat) : Nat :=
  match FlatIndex.kind v with
  | some (.MyBins i) => (b.sides 0).bins i
  | some .MyMancala => (b.sides 0).mancala
  | some (.TheirBins i) => (b.sides 1).bins i
  | none => 0

/-- Overwrite one bin of a side. -/
def BoardSide.setBin (s : BoardSide) (i : Fin 6) (a : Nat) : BoardSide :=
  ⟨fun j => if j = i then a else s.bins j, s.mancala⟩

/-- Overwrite the store of a side. -/
def BoardSide.setMancala (s : BoardSide) (a : Nat) : BoardSide :=
  ⟨s.bins, a⟩

/-- Replace one side of a board. -/
def Board.setSide (b : Board) (j : Fin 2) (s : BoardSide) : Board :=
  ⟨fun k => if k = j then s else b.sides k⟩

/-- Writing a board slot through the flat circular index
(`impl IndexMut<FlatIndex> for Board`).  The unreachable arm is a no-op. -/
def Board.setFlat (b : Board) (v : Nat) (a : Nat) : Board :=
  match FlatIndex.kind v with
  | some (.MyBins i) => b.setSide 0 ((b.sides 0).setBin i a)
  | some .MyMancala => b.setSide 0 ((b.sides 0).setMancala a)
  | some (.TheirBins i) => b.setSide 1 ((b.sides 1).setBin i a)
  | none => b

/-- Total stones in the six bins of one side. -/
def BoardSide.binsSum (s : BoardSide) : Nat := ∑ i : Fin 6, s.bins i

/-- Total stones in all twelve bins. -/
def Board.binsTotal (b : Board) : Nat := (b.sides 0).binsSum + (b.sides 1).binsSum

/-- The current player's store. -/
def Board.mancala0 (b : Board) : Nat := (b.sides 0).mancala

/-- The opponent's store. -/
def Board.mancala1 (b : Board) : Nat := (b.sides 1).mancala

/-- Total stones on the board: all bins plus both stores. -/
def Board.totalStones (b : Board) : Nat := b.binsTotal + b.mancala0 + b.mancala1

namespace Board

theorem getFlat_lt6 (b : Board) {v : Nat} (h : v ≤ 5) :
    b.getFlat v = (b.sides 0).bins ⟨v, by omega⟩ := by
  unfold getFlat
  rw [FlatIndex.kind_lt6 h]

theorem getFlat_six (b : Board) : b.getFlat 6 = (b.sides 0).mancala := rfl

theorem getFlat_their (b : Board) {v : Nat} (h1 : 7 ≤ v) (h2 : v ≤ 12) :
    b.getFlat v = (b.sides 1).bins ⟨v - 7, by omega⟩ := by
  unfold getFlat
  rw [FlatIndex.kind_their h1 h2]

theorem getFlat_ge13 (b : Board) {v : Nat} (h : 13 ≤ v) : b.getFlat v = 0 := by
  unfold getFlat
  rw [FlatIndex.kind_ge13 h]

theorem setFlat_lt6 (b : Board) {v : Nat} (h : v ≤ 5) (a : Nat) :
    b.setFlat v a = b.setSide 0 ((b.sides 0).setBin ⟨v, by omega⟩ a) := by
  unfold setFlat
  rw [FlatIndex.kind_lt6 h]

theorem setFlat_six (b : Board) (a : Nat) :
    b.setFlat 6 a = b.setSide 0 ((b.sides 0).setMancala a) := rfl

theorem setFlat_their (b : Board) {v : Nat} (h1 : 7 ≤ v) (h2 : v ≤ 12) (a : Nat) :
    b.setFlat v a = b.setSide 1 ((b.sides 1).setBin ⟨v - 7, by omega⟩ a) := by
  unfold setFlat
  rw [FlatIndex.kind_their h1 h2]

theorem setFlat_ge13 (b : Board) {v : Nat} (h : 13 ≤ v) (a : Nat) :
    b.setFlat v a = b := by
  unfold setFlat
  rw [FlatIndex.kind_ge13 h]

@[simp] theorem sides_setSide_same (b : Board) (j : Fin 2) (s : BoardSide) :
    (b.setSide j s).sides j = s := by
  unfold setSide
  exact if_pos rfl

theorem sides_setSide_ne (b : Board) {j k : Fin 2} (h : k ≠ j) (s : BoardSide) :
    (b.setSide j s).sides k = b.sides k := by
  unfold setSide
  exact if_neg h

@[simp] theorem bins_setBin_same (s : BoardSide) (i : Fin 6) (a : Nat) :
    (s.setBin i a).bins i = a := by
  unfold BoardSide.setBin
  exact if_pos rfl

theorem bins_setBin_ne (s : BoardSide) {i j : Fin 6} (h : j ≠ i) (a : Nat) :
    (s.setBin i a).bins j = s.bins j := by
  unfold BoardSide.setBin
  exact if_neg h

@[simp] theorem mancala_setBin (s : BoardSide) (i : Fin 6) (a : Nat) :
    (s.setBin i a).mancala = s.mancala := rfl

@[simp] theorem bins_setMancala (s : BoardSide) (a : Nat) :
    (s.setMancala a).bins = s.bins := rfl

@[simp] theorem mancala_setMancala (s : BoardSide) (a : Nat) :
    (s.setMancala a).mancala = a := rfl

theorem getFlat_setFlat_self (b : Board) {v : Nat} (h : v ≤ 12) (a : Nat) :
    (b.setFlat v a).getFlat v = a := by
  rcases (by omega : v ≤ 5 ∨ v = 6 ∨ (7 ≤ v ∧ v ≤ 12)) with h' | h' | ⟨h1, h2⟩
  · rw [setFlat_lt6 b h', getFlat_lt6 _ h']
    simp
  · subst h'
    rw [setFlat_six, getFlat_six]
    simp
  · rw [setFlat_their b h1 h2, getFlat_their _ h1 h2]
    simp

theorem getFlat_setFlat_ne (b : Board) {v w : Nat} (hne : v ≠ w) (a : Nat) :
    (b.setFlat v a).getFlat w = b.getFlat w := by
  by_cases hv : 13 ≤ v
  · rw [setFlat_ge13 b hv]
  by_cases hw : 13 ≤ w
  · rw [getFlat_ge13 _ hw, getFlat_ge13 b hw]
  rcases (by omega : v ≤ 5 ∨ v = 6 ∨ (7 ≤ v ∧ v ≤ 12)) with hv' | hv' | hv' <;>
    rcases (by omega : w ≤ 5 ∨ w = 6 ∨ (7 ≤ w ∧ w ≤ 12)) with hw' | hw' | hw'
  · rw [setFlat_lt6 b hv', getFlat_lt6 _ hw', getFlat_lt6 b hw']
    rw [sides_setSide_same, bins_setBin_ne _ (by simp [Fin.ext_iff]; omega)]
  · subst hw'
    rw [setFlat_lt6 b hv', getFlat_six, getFlat_six]
    rw [sides_setSide_same, mancala_setBin]
  · rw [setFlat_lt6 b hv', getFlat_their _ hw'.1 hw'.2, getFlat_their b hw'.1 hw'.2]
    rw [sides_setSide_ne _ (by decide)]
  · subst hv'
    rw [setFlat_six, getFlat_lt6 _ hw', getFlat_lt6 b hw']
    rw [sides_setSide_same, bins_setMancala]
  · omega
  · subst hv'
    rw [setFlat_six, getFlat_their _ hw'.1 hw'.2, getFlat_their b hw'.1 hw'.2]
    rw [sides_setSide_ne _ (by decide)]
  · rw [setFlat_their b hv'.1 hv'.2, getFlat_lt6 _ hw', getFlat_lt6 b hw']
    rw [sides_setSide_ne _ (by decide)]
  · subst hw'
    rw [setFlat_their b hv'.1 hv'.2, getFlat_six, getFlat_six]
    rw [sides_setSide_ne _ (by decide)]
  · rw [setFlat_their b hv'.1 hv'.2, getFlat_their _ hw'.1 hw'.2,
      getFlat_their b hw'.1 hw'.2]
    rw [sides_setSide_same, bins_setBin_ne _ (by simp [Fin.ext_iff]; omega)]

end Board

namespace BoardSide

theorem binsSum_setBin (s : BoardSide) (i : Fin 6) (a : Nat) :
    (s.setBin i a).binsSum + s.bins i = s.binsSum + a := by
  unfold binsSum setBin
  have hupd : (fun j => if j = i then a else s.bins j) =
      Function.update s.bins i a := by
    funext j
    rw [Function.update_apply]
  simp only [hupd]
  rw [Finset.sum_update_of_mem (Finset.mem_univ i)]
  rw [← Finset.add_sum_erase Finset.univ s.bins (Finset.mem_univ i),
    Finset.erase_eq]
  omega

end BoardSide

namespace Board

theorem binsTotal_setFlat_bin (b : Board) {v : Nat} (h12 : v ≤ 12) (h6 : v ≠ 6)
    (a : Nat) : (b.setFlat v a).binsTotal + b.getFlat v = b.binsTotal + a := by
  rcases (by omega : v ≤ 5 ∨ (7 ≤ v ∧ v ≤ 12)) with h' | ⟨h1, h2⟩
  · rw [setFlat_lt6 b h', getFlat_lt6 b h']
    unfold binsTotal
    rw [sides_setSide_same, sides_setSide_ne _ (by decide)]
    have := BoardSide.binsSum_setBin (b.sides 0) ⟨v, by omega⟩ a
    omega
  · rw [setFlat_their b h1 h2, getFlat_their b h1 h2]
    unfold binsTotal
    rw [sides_setSide_same, sides_setSide_ne _ (by decide)]
    have := BoardSide.binsSum_setBin (b.sides 1) ⟨v - 7, by omega⟩ a
    omega

theorem binsTotal_setFlat_six (b : Board) (a : Nat) :
    (b.setFlat 6 a).binsTotal = b.binsTotal := by
  rw [setFlat_six]
  unfold binsTotal
  rw [sides_setSide_same, sides_setSide_ne _ (by decide)]
  unfold BoardSide.binsSum
  rw [bins_setMancala]

theorem mancala0_setFlat_bin (b : Board) {v : Nat} (h6 : v ≠ 6) (a : Nat) :
    (b.setFlat v a).mancala0 = b.mancala0 := by
  by_cases hv : 13 ≤ v
  · rw [setFlat_ge13 b hv]
  rcases (by omega : v ≤ 5 ∨ (7 ≤ v ∧ v ≤ 12)) with h' | ⟨h1, h2⟩
  · rw [setFlat_lt6 b h']
    unfold mancala0
    rw [sides_setSide_same, mancala_setBin]
  · rw [setFlat_their b h1 h2]
    unfold mancala0
    rw [sides_setSide_ne _ (by decide)]

theorem mancala0_setFlat_six (b : Board) (a : Nat) :
    (b.setFlat 6 a).mancala0 = a := by
  rw [setFlat_six]
  unfold mancala0
  rw [sides_setSide_same, mancala_setMancala]

theorem mancala1_setFlat (b : Board) (v a : Nat) :
    (b.setFlat v a).mancala1 = b.mancala1 := by
  by_cases hv : 13 ≤ v
  · rw [setFlat_ge13 b hv]
  rcases (by omega : v ≤ 5 ∨ v = 6 ∨ (7 ≤ v ∧ v ≤ 12)) with h' | h' | ⟨h1, h2⟩
  · rw [setFlat_lt6 b h']
    unfold mancala1
    rw [sides_setSide_ne _ (by decide)]
  · subst h'
    rw [setFlat_six]
    unfold mancala1
    rw [sides_setSide_ne _ (by decide)]
  · rw [setFlat_their b h1 h2]
    unfold mancala1
    rw [sides_setSide_same, mancala_setBin]

theorem totalStones_setFlat (b : Board) {v : Nat} (h12 : v ≤ 12) (a : Nat) :
    (b.setFlat v a).totalStones + b.getFlat v = b.totalStones + a := by
  by_cases h6 : v = 6
  · subst h6
    unfold totalStones
    rw [binsTotal_setFlat_six, mancala0_setFlat_six, mancala1_setFlat,
      getFlat_six]
    unfold mancala0
    omega
  · unfold totalStones
    rw [mancala0_setFlat_bin b h6, mancala1_setFlat]
    have := binsTotal_setFlat_bin b h12 h6 a
    omega

end Board

/-- The sowing loop of `Board::make_move_`:
`while in_hand > 0 { index.step(); self[index] += 1; in_hand -= 1 }`.
Returns the board after sowing together with the final index. -/
def Board.sow : Board → Nat → Nat → Board × Nat
  | b, v, 0 => (b, v)
  | b, v, n + 1 =>
    Board.sow (b.setFlat ((v + 1) % 13) (b.getFlat ((v + 1) % 13) + 1))
      ((v + 1) % 13) n

namespace Board

theorem sow_zero (b : Board) (v : Nat) : b.sow v 0 = (b, v) := rfl

theorem sow_snd (b : Board) (v : Nat) {n : Nat} (h : 1 ≤ n) :
    (b.sow v n).2 = (v + n) % 13 := by
  induction n generalizing b v with
  | zero => omega
  | succ n ih =>
    show (Board.sow _ ((v + 1) % 13) n).2 = _
    rcases Nat.eq_zero_or_pos n with h0 | h0
    · subst h0
      rw [sow_zero]
    · rw [ih _ _ h0, Nat.mod_add_mod]
      omega

theorem sow_snd_le (b : Board) (v : Nat) {n : Nat} (h : 1 ≤ n) :
    (b.sow v n).2 ≤ 12 := by
  rw [sow_snd b v h]
  omega

theorem totalStones_sow (b : Board) (v : Nat) (n : Nat) :
    (b.sow v n).1.totalStones = b.totalStones + n := by
  induction n generalizing b v with
  | zero => rfl
  | succ n ih =>
    show (Board.sow _ ((v + 1) % 13) n).1.totalStones = _
    rw [ih]
    have := b.totalStones_setFlat (v := (v + 1) % 13) (by omega)
      (b.getFlat ((v + 1) % 13) + 1)
    omega

theorem mancala1_sow (b : Board) (v : Nat) (n : Nat) :
    (b.sow v n).1.mancala1 = b.mancala1 := by
  induction n generalizing b v with
  | zero => rfl
  | succ n ih =>
    show (Board.sow _ ((v + 1) % 13) n).1.mancala1 = _
    rw [ih, mancala1_setFlat]

theorem mancala0_sow_le (b : Board) (v : Nat) (n : Nat) :
    b.mancala0 ≤ (b.sow v n).1.mancala0 := by
  induction n generalizing b v with
  | zero => exact Nat.le_refl _
  | succ n ih =>
    show b.mancala0 ≤ (Board.sow _ ((v + 1) % 13) n).1.mancala0
    refine Nat.le_trans ?_ (ih _ _)
    by_cases h6 : (v + 1) % 13 = 6
    · rw [h6, mancala0_setFlat_six, getFlat_six]
      unfold mancala0
      omega
    · rw [mancala0_setFlat_bin b h6]

theorem mancala0_sow_six (b : Board) (v : Nat) {n : Nat} (h : 1 ≤ n)
    (h6 : (b.sow v n).2 = 6) : b.mancala0 < (b.sow v n).1.mancala0 := by
  induction n generalizing b v with
  | zero => omega
  | succ n ih =>
    rcases Nat.eq_zero_or_pos n with h0 | h0
    · subst h0
      have hv : (v + 1) % 13 = 6 := h6
      show b.mancala0 < (b.setFlat ((v + 1) % 13) (b.getFlat ((v + 1) % 13) + 1)).mancala0
      rw [hv, mancala0_setFlat_six, getFlat_six]
      unfold mancala0
      omega
    · have h6' : ((b.setFlat ((v + 1) % 13) (b.getFlat ((v + 1) % 13) + 1)).sow
          ((v + 1) % 13) n).2 = 6 := h6
      refine Nat.lt_of_le_of_lt ?_ (ih _ _ h0 h6')
      by_cases hx : (v + 1) % 13 = 6
      · rw [hx, mancala0_setFlat_six, getFlat_six]
        unfold mancala0
        omega
      · rw [mancala0_setFlat_bin b hx]

end Board

/-- Forward distance (in sowing steps) from position `v` to the current
player's store at position 6, counted in `1..=13`. -/
def storeDist (v : Nat) : Nat := (18 - v % 13) % 13 + 1

/-- Termination measure for the chain-sowing recursion: thirteen times the
stones that are still in circulation (all bins, plus the pile about to be
picked up at `v`), plus the forward distance from `v` to the store. -/
def Board.moveMeasure (b : Board) (v : Nat) : Nat :=
  13 * ((b.setFlat v 0).binsTotal + b.getFlat v) + storeDist v

namespace Board

theorem sow_binsTotal_dist (b : Board) (v : Nat) (n : Nat) :
    13 * (b.sow v n).1.binsTotal + storeDist (b.sow v n).2 ≤
      13 * b.binsTotal + storeDist v + 12 * n := by
  induction n generalizing b v with
  | zero => exact Nat.le_refl _
  | succ n ih =>
    show 13 * (Board.sow _ ((v + 1) % 13) n).1.binsTotal +
        storeDist (Board.sow _ ((v + 1) % 13) n).2 ≤ _
    refine Nat.le_trans (ih _ _) ?_
    by_cases h6 : (v + 1) % 13 = 6
    · rw [h6, binsTotal_setFlat_six]
      unfold storeDist
      omega
    · have hb := b.binsTotal_setFlat_bin (v := (v + 1) % 13) (by omega) h6
        (b.getFlat ((v + 1) % 13) + 1)
      unfold storeDist
      omega

theorem sow_measure_lt (b : Board) (v : Nat)
    (h6 : ((b.setFlat v 0).sow v (b.getFlat v)).2 ≠ 6)
    (hgt : 1 < ((b.setFlat v 0).sow v (b.getFlat v)).1.getFlat
      ((b.setFlat v 0).sow v (b.getFlat v)).2) :
    ((b.setFlat v 0).sow v (b.getFlat v)).1.moveMeasure
      ((b.setFlat v 0).sow v (b.getFlat v)).2 < b.moveMeasure v := by
  have hn : 1 ≤ b.getFlat v := by
    by_contra hc
    have h0 : b.getFlat v = 0 := by omega
    rw [h0, sow_zero] at hgt
    by_cases hv : 13 ≤ v
    · rw [getFlat_ge13 _ hv] at hgt
      omega
    · rw [getFlat_setFlat_self b (by omega) 0] at hgt
      omega
  have h12 : ((b.setFlat v 0).sow v (b.getFlat v)).2 ≤ 12 :=
    sow_snd_le _ v hn
  have hbt := (((b.setFlat v 0).sow v (b.getFlat v)).1).binsTotal_setFlat_bin
    h12 h6 0
  have hsow := sow_binsTotal_dist (b.setFlat v 0) v (b.getFlat v)
  unfold moveMeasure
  unfold storeDist at hsow ⊢
  omega

end Board

namespace FlatIndex

theorem kind_myBins_range {w : Nat} {i : Fin 6}
    (h : kind w = some (.MyBins i)) : w ≤ 5 ∧ i.val = w := by
  by_cases h5 : w ≤ 5
  · rw [kind_lt6 h5] at h
    simp at h
    exact ⟨h5, by rw [← h]⟩
  · exfalso
    by_cases h6 : w = 6
    · subst h6
      simp [kind_six] at h
    · by_cases h12 : w ≤ 12
      · rw [kind_their (by omega) h12] at h
        simp at h
      · rw [kind_ge13 (by omega)] at h
        simp at h

theorem kind_theirBins_range {w : Nat} {i : Fin 6}
    (h : kind w = some (.TheirBins i)) : 7 ≤ w ∧ w ≤ 12 ∧ i.val = w - 7 := by
  by_cases h5 : w ≤ 5
  · rw [kind_lt6 h5] at h
    simp at h
  · by_cases h6 : w = 6
    · subst h6
      simp [kind_six] at h
    · by_cases h12 : w ≤ 12
      · rw [kind_their (by omega) h12] at h
        simp at h
        exact ⟨by omega, h12, by rw [← h]⟩
      · rw [kind_ge13 (by omega)] at h
        simp at h

theorem kind_myMancala_range {w : Nat}
    (h : kind w = some .MyMancala) : w = 6 := by
  by_cases h5 : w ≤ 5
  · rw [kind_lt6 h5] at h
    simp at h
  · by_cases h6 : w = 6
    · exact h6
    · by_cases h12 : w ≤ 12
      · rw [kind_their (by omega) h12] at h
        simp at h
      · rw [kind_ge13 (by omega)] at h
        simp at h

end FlatIndex

/-- The capture of `Board::make_move_`'s own-bin arm:
`self.sides[0].mancala += std::mem::take(&mut self[index.opposite()])`. -/
def Board.bankOpposite (b : Board) (v : Nat) : Board :=
  ((b.setFlat (FlatIndex.opposite v) 0).setSide 0
    (((b.setFlat (FlatIndex.opposite v) 0).sides 0).setMancala
      (((b.setFlat (FlatIndex.opposite v) 0).sides 0).mancala +
        b.getFlat (FlatIndex.opposite v))))

namespace Board

theorem opposite_range {v : Nat} (h : v ≤ 5) :
    7 ≤ FlatIndex.opposite v ∧ FlatIndex.opposite v ≤ 12 := by
  unfold FlatIndex.opposite
  omega

theorem mancala0_bankOpposite (b : Board) {v : Nat} (h : v ≤ 5) :
    (b.bankOpposite v).mancala0 = b.mancala0 + b.getFlat (FlatIndex.opposite v) := by
  unfold bankOpposite mancala0
  rw [sides_setSide_same, mancala_setMancala]
  have := b.mancala0_setFlat_bin (v := FlatIndex.opposite v)
    (by unfold FlatIndex.opposite; omega) 0
  unfold mancala0 at this
  rw [this]

theorem mancala1_bankOpposite (b : Board) (v : Nat) :
    (b.bankOpposite v).mancala1 = b.mancala1 := by
  unfold bankOpposite mancala1
  rw [sides_setSide_ne _ (by decide)]
  have := b.mancala1_setFlat (FlatIndex.opposite v) 0
  unfold mancala1 at this
  rw [this]

theorem binsTotal_setSide0_setMancala (b : Board) (a : Nat) :
    (b.setSide 0 ((b.sides 0).setMancala a)).binsTotal = b.binsTotal := by
  unfold binsTotal
  rw [sides_setSide_same, sides_setSide_ne _ (by decide)]
  unfold BoardSide.binsSum
  rw [bins_setMancala]

theorem binsTotal_bankOpposite (b : Board) {v : Nat} (h : v ≤ 5) :
    (b.bankOpposite v).binsTotal + b.getFlat (FlatIndex.opposite v) = b.binsTotal := by
  unfold bankOpposite
  rw [binsTotal_setSide0_setMancala]
  have := b.binsTotal_setFlat_bin (v := FlatIndex.opposite v)
    (by unfold FlatIndex.opposite; omega) (by unfold FlatIndex.opposite; omega) 0
  omega

theorem totalStones_bankOpposite (b : Board) {v : Nat} (h : v ≤ 5) :
    (b.bankOpposite v).totalStones = b.totalStones := by
  unfold totalStones
  rw [mancala0_bankOpposite b h, mancala1_bankOpposite]
  have := binsTotal_bankOpposite b h
  omega

theorem getFlat_bankOpposite_opp (b : Board) {v : Nat} (h : v ≤ 5) :
    (b.bankOpposite v).getFlat (FlatIndex.opposite v) = 0 := by
  unfold bankOpposite
  have h7 := (opposite_range h).1
  have h12 := (opposite_range h).2
  rw [getFlat_their _ h7 h12, sides_setSide_ne _ (by decide)]
  have := (b.setFlat (FlatIndex.opposite v) 0).getFlat_their h7 h12
  rw [← this]
  exact b.getFlat_setFlat_self (by omega) 0

theorem getFlat_bankOpposite_lt6 (b : Board) {v w : Nat} (h : v ≤ 5) (hw : w ≤ 5) :
    (b.bankOpposite v).getFlat w = b.getFlat w := by
  unfold bankOpposite
  rw [getFlat_lt6 _ hw, sides_setSide_same, bins_setMancala]
  rw [← getFlat_lt6 (b.setFlat (FlatIndex.opposite v) 0) hw]
  exact b.getFlat_setFlat_ne (by unfold FlatIndex.opposite; omega) 0

end Board

theorem Board.sow_pair_measure_lt (b : Board) (v : Nat) (q : Board × Nat)
    (hq : q = (b.setFlat v 0).sow v (b.getFlat v)) (h6 : q.2 ≠ 6)
    (hgt : 1 < q.1.getFlat q.2) : q.1.moveMeasure q.2 < b.moveMeasure v := by
  subst hq
  exact Board.sow_measure_lt b v h6 hgt

/-- `Board::make_move_`: empty the slot at `index` into the hand, sow the
stones one step at a time around the 13-slot circle, then classify the final
position — chaining recursively whenever the last stone lands in a bin that
now holds more than one stone.  The source's unreachable classification arm is
modelled as ending the turn with the board as-is. -/
def Board.make_move_ (b : Board) (v : Nat) : Board × MoveResult :=
  let p := (b.setFlat v 0).sow v (b.getFlat v)
  match hk : FlatIndex.kind p.2 with
  | some (.TheirBins _) =>
    if hgt : 1 < p.1.getFlat p.2 then p.1.make_move_ p.2
    else (p.1, .TurnOver)
  | some (.MyBins _) =>
    if hgt : 1 < p.1.getFlat p.2 then p.1.make_move_ p.2
    else (p.1.bankOpposite p.2, .TurnOver)
  | some .MyMancala => (p.1, .GoAgain)
  | none => (p.1, .TurnOver)
termination_by b.moveMeasure v
decreasing_by
  · exact Board.sow_pair_measure_lt b v p rfl
      (by have := FlatIndex.kind_theirBins_range hk; omega) hgt
  · exact Board.sow_pair_measure_lt b v p rfl
      (by have := FlatIndex.kind_myBins_range hk; omega) hgt

/-- `Board::make_move`: the public entry.  Returns the (possibly) updated
board together with `none` when the chosen bin is empty. -/
def Board.make_move (b : Board) (bin : Bin) : Board × Option MoveResult :=
  if b.getFlat (FlatIndex.ofBin bin) = 0 then (b, none)
  else ((b.make_move_ (FlatIndex.ofBin bin)).1,
    some (b.make_move_ (FlatIndex.ofBin bin)).2)

namespace Board

theorem make_move__their_chain {b : Board} {v : Nat} {i : Fin 6}
    (hk : FlatIndex.kind ((b.setFlat v 0).sow v (b.getFlat v)).2 =
      some (.TheirBins i))
    (hgt : 1 < ((b.setFlat v 0).sow v (b.getFlat v)).1.getFlat
      ((b.setFlat v 0).sow v (b.getFlat v)).2) :
    b.make_move_ v = ((b.setFlat v 0).sow v (b.getFlat v)).1.make_move_
      ((b.setFlat v 0).sow v (b.getFlat v)).2 := by
  rw [Board.make_move_.eq_def]
  simp only []
  split <;> rename_i heq <;> rw [hk] at heq <;> try simp at heq
  rw [dif_pos hgt]

theorem make_move__their_end {b : Board} {v : Nat} {i : Fin 6}
    (hk : FlatIndex.kind ((b.setFlat v 0).sow v (b.getFlat v)).2 =
      some (.TheirBins i))
    (hgt : ¬1 < ((b.setFlat v 0).sow v (b.getFlat v)).1.getFlat
      ((b.setFlat v 0).sow v (b.getFlat v)).2) :
    b.make_move_ v = (((b.setFlat v 0).sow v (b.getFlat v)).1,
      .TurnOver) := by
  rw [Board.make_move_.eq_def]
  simp only []
  split <;> rename_i heq <;> rw [hk] at heq <;> try simp at heq
  rw [dif_neg hgt]

theorem make_move__my_chain {b : Board} {v : Nat} {i : Fin 6}
    (hk : FlatIndex.kind ((b.setFlat v 0).sow v (b.getFlat v)).2 =
      some (.MyBins i))
    (hgt : 1 < ((b.setFlat v 0).sow v (b.getFlat v)).1.getFlat
      ((b.setFlat v 0).sow v (b.getFlat v)).2) :
    b.make_move_ v = ((b.setFlat v 0).sow v (b.getFlat v)).1.make_move_
      ((b.setFlat v 0).sow v (b.getFlat v)).2 := by
  rw [Board.make_move_.eq_def]
  simp only []
  split <;> rename_i heq <;> rw [hk] at heq <;> try simp at heq
  rw [dif_pos hgt]

theorem make_move__my_end {b : Board} {v : Nat} {i : Fin 6}
    (hk : FlatIndex.kind ((b.setFlat v 0).sow v (b.getFlat v)).2 =
      some (.MyBins i))
    (hgt : ¬1 < ((b.setFlat v 0).sow v (b.getFlat v)).1.getFlat
      ((b.setFlat v 0).sow v (b.getFlat v)).2) :
    b.make_move_ v = (((b.setFlat v 0).sow v (b.getFlat v)).1.bankOpposite
      ((b.setFlat v 0).sow v (b.getFlat v)).2, .TurnOver) := by
  rw [Board.make_move_.eq_def]
  simp only []
  split <;> rename_i heq <;> rw [hk] at heq <;> try simp at heq
  rw [dif_neg hgt]

theorem make_move__mancala {b : Board} {v : Nat}
    (hk : FlatIndex.kind ((b.setFlat v 0).sow v (b.getFlat v)).2 =
      some .MyMancala) :
    b.make_move_ v = (((b.setFlat v 0).sow v (b.getFlat v)).1,
      .GoAgain) := by
  rw [Board.make_move_.eq_def]
  simp only []
  split <;> rename_i heq <;> rw [hk] at heq <;> simp at heq

theorem make_move__none {b : Board} {v : Nat}
    (hk : FlatIndex.kind ((b.setFlat v 0).sow v (b.getFlat v)).2 = none) :
    b.make_move_ v = (((b.setFlat v 0).sow v (b.getFlat v)).1,
      .TurnOver) := by
  rw [Board.make_move_.eq_def]
  simp only []
  split <;> rename_i heq <;> rw [hk] at heq <;> simp at heq

end Board

namespace Board

theorem sow_pickup_total (b : Board) (v : Nat) :
    ((b.setFlat v 0).sow v (b.getFlat v)).1.totalStones = b.totalStones := by
  rw [totalStones_sow]
  by_cases hv : 13 ≤ v
  · rw [setFlat_ge13 b hv, getFlat_ge13 b hv]
    omega
  · have := b.totalStones_setFlat (v := v) (by omega) 0
    omega

/-- Conservation through one full (possibly chaining) move: `make_move_`
never creates or destroys stones. -/
theorem totalStones_make_move_ (b : Board) (v : Nat) :
    (b.make_move_ v).1.totalStones = b.totalStones := by
  induction b, v using Board.make_move_.induct with
  | case1 b v p i hk hgt ih =>
    rw [make_move__their_chain hk hgt]
    exact ih.trans (sow_pickup_total b v)
  | case2 b v p i hk hgt =>
    rw [make_move__their_end hk hgt]
    exact sow_pickup_total b v
  | case3 b v p i hk hgt ih =>
    rw [make_move__my_chain hk hgt]
    exact ih.trans (sow_pickup_total b v)
  | case4 b v p i hk hgt =>
    rw [make_move__my_end hk hgt]
    exact (totalStones_bankOpposite _
      (FlatIndex.kind_myBins_range hk).1).trans (sow_pickup_total b v)
  | case5 b v p hk =>
    rw [make_move__mancala hk]
    exact sow_pickup_total b v
  | case6 b v p hk =>
    rw [make_move__none hk]
    exact sow_pickup_total b v

theorem sow_pickup_mancala1 (b : Board) (v : Nat) :
    ((b.setFlat v 0).sow v (b.getFlat v)).1.mancala1 = b.mancala1 := by
  rw [mancala1_sow, mancala1_setFlat]

/-- The opponent's store is never touched by a move. -/
theorem mancala1_make_move_ (b : Board) (v : Nat) :
    (b.make_move_ v).1.mancala1 = b.mancala1 := by
  induction b, v using Board.make_move_.induct with
  | case1 b v p i hk hgt ih =>
    rw [make_move__their_chain hk hgt]
    exact ih.trans (sow_pickup_mancala1 b v)
  | case2 b v p i hk hgt =>
    rw [make_move__their_end hk hgt]
    exact sow_pickup_mancala1 b v
  | case3 b v p i hk hgt ih =>
    rw [make_move__my_chain hk hgt]
    exact ih.trans (sow_pickup_mancala1 b v)
  | case4 b v p i hk hgt =>
    rw [make_move__my_end hk hgt]
    exact (mancala1_bankOpposite _ _).trans (sow_pickup_mancala1 b v)
  | case5 b v p hk =>
    rw [make_move__mancala hk]
    exact sow_pickup_mancala1 b v
  | case6 b v p hk =>
    rw [make_move__none hk]
    exact sow_pickup_mancala1 b v

theorem sow_pickup_mancala0_le (b : Board) {v : Nat} (h6 : v ≠ 6) :
    b.mancala0 ≤ ((b.setFlat v 0).sow v (b.getFlat v)).1.mancala0 := by
  rw [← b.mancala0_setFlat_bin (v := v) h6 0]
  exact mancala0_sow_le _ v _

/-- The current player's store never shrinks during a move started from a
bin. -/
theorem mancala0_le_make_move_ (b : Board) (v : Nat) :
    v ≠ 6 → b.mancala0 ≤ (b.make_move_ v).1.mancala0 := by
  induction b, v using Board.make_move_.induct with
  | case1 b v p i hk hgt ih =>
    intro h6
    rw [make_move__their_chain hk hgt]
    refine Nat.le_trans (sow_pickup_mancala0_le b h6) ?_
    exact ih (by have := FlatIndex.kind_theirBins_range hk; omega)
  | case2 b v p i hk hgt =>
    intro h6
    rw [make_move__their_end hk hgt]
    exact sow_pickup_mancala0_le b h6
  | case3 b v p i hk hgt ih =>
    intro h6
    rw [make_move__my_chain hk hgt]
    refine Nat.le_trans (sow_pickup_mancala0_le b h6) ?_
    exact ih (by have := FlatIndex.kind_myBins_range hk; omega)
  | case4 b v p i hk hgt =>
    intro h6
    rw [make_move__my_end hk hgt]
    refine Nat.le_trans (sow_pickup_mancala0_le b h6) ?_
    show ((b.setFlat v 0).sow v (b.getFlat v)).1.mancala0 ≤
      (((b.setFlat v 0).sow v (b.getFlat v)).1.bankOpposite
        ((b.setFlat v 0).sow v (b.getFlat v)).2).mancala0
    rw [mancala0_bankOpposite _ (FlatIndex.kind_myBins_range hk).1]
    omega
  | case5 b v p hk =>
    intro h6
    rw [make_move__mancala hk]
    exact sow_pickup_mancala0_le b h6
  | case6 b v p hk =>
    intro h6
    rw [make_move__none hk]
    exact sow_pickup_mancala0_le b h6

/-- A move from a bin that ends with a bonus (`GoAgain`) strictly grows the
current player's store: the last stone landed in it. -/
theorem mancala0_lt_of_goAgain (b : Board) (v : Nat) :
    v ≠ 6 → (b.make_move_ v).2 = .GoAgain →
      b.mancala0 < (b.make_move_ v).1.mancala0 := by
  induction b, v using Board.make_move_.induct with
  | case1 b v p i hk hgt ih =>
    intro h6 hga
    rw [make_move__their_chain hk hgt] at hga ⊢
    refine Nat.lt_of_le_of_lt (sow_pickup_mancala0_le b h6) ?_
    exact ih (by have := FlatIndex.kind_theirBins_range hk; omega) hga
  | case2 b v p i hk hgt =>
    intro h6 hga
    rw [make_move__their_end hk hgt] at hga
    simp at hga
  | case3 b v p i hk hgt ih =>
    intro h6 hga
    rw [make_move__my_chain hk hgt] at hga ⊢
    refine Nat.lt_of_le_of_lt (sow_pickup_mancala0_le b h6) ?_
    exact ih (by have := FlatIndex.kind_myBins_range hk; omega) hga
  | case4 b v p i hk hgt =>
    intro h6 hga
    rw [make_move__my_end hk hgt] at hga
    simp at hga
  | case5 b v p hk =>
    intro h6 hga
    have hp2 : ((b.setFlat v 0).sow v (b.getFlat v)).2 = 6 :=
      FlatIndex.kind_myMancala_range hk
    have hn : 1 ≤ b.getFlat v := by
      by_contra hc
      have h0 : b.getFlat v = 0 := by omega
      rw [h0, sow_zero] at hp2
      exact h6 hp2
    have hlt := mancala0_sow_six (b.setFlat v 0) v hn hp2
    have hmb : (b.setFlat v 0).mancala0 = b.mancala0 :=
      mancala0_setFlat_bin b h6 0
    rw [make_move__mancala hk]
    show b.mancala0 < ((b.setFlat v 0).sow v (b.getFlat v)).1.mancala0
    omega
  | case6 b v p hk =>
    intro h6 hga
    rw [make_move__none hk] at hga
    simp at hga

end Board

theorem FlatIndex.ofBin_le (bin : Bin) : FlatIndex.ofBin bin ≤ 5 := by
  cases bin <;> decide

namespace Board

theorem make_move_empty (b : Board) (bin : Bin)
    (h : b.getFlat (FlatIndex.ofBin bin) = 0) : b.make_move bin = (b, none) := by
  unfold make_move
  rw [if_pos h]

theorem make_move_nonempty (b : Board) (bin : Bin)
    (h : b.getFlat (FlatIndex.ofBin bin) ≠ 0) :
    b.make_move bin = ((b.make_move_ (FlatIndex.ofBin bin)).1,
      some (b.make_move_ (FlatIndex.ofBin bin)).2) := by
  unfold make_move
  rw [if_neg h]

/-- Stones are conserved by the public move entry. -/
theorem totalStones_make_move (b : Board) (bin : Bin) :
    (b.make_move bin).1.totalStones = b.totalStones := by
  by_cases h : b.getFlat (FlatIndex.ofBin bin) = 0
  · rw [make_move_empty b bin h]
  · rw [make_move_nonempty b bin h]
    exact totalStones_make_move_ b _

/-- A bonus-granting move strictly shrinks the stones left in the bins. -/
theorem binsTotal_lt_of_goAgain {b b2 : Board} {bin : Bin}
    (h : b.make_move bin = (b2, some .GoAgain)) : b2.binsTotal < b.binsTotal := by
  by_cases h0 : b.getFlat (FlatIndex.ofBin bin) = 0
  · rw [make_move_empty b bin h0] at h
    simp at h
  · rw [make_move_nonempty b bin h0] at h
    have hb2 : b2 = (b.make_move_ (FlatIndex.ofBin bin)).1 :=
      (congrArg Prod.fst h).symm
    have hga : (b.make_move_ (FlatIndex.ofBin bin)).2 = .GoAgain := by
      have := congrArg Prod.snd h
      simp at this
      exact this
    have h6 : FlatIndex.ofBin bin ≠ 6 := by
      have := FlatIndex.ofBin_le bin
      omega
    have e1 := totalStones_make_move_ b (FlatIndex.ofBin bin)
    have e2 := mancala1_make_move_ b (FlatIndex.ofBin bin)
    have e3 := mancala0_lt_of_goAgain b (FlatIndex.ofBin bin) h6 hga
    have d1 : (b.make_move_ (FlatIndex.ofBin bin)).1.totalStones =
        (b.make_move_ (FlatIndex.ofBin bin)).1.binsTotal +
        (b.make_move_ (FlatIndex.ofBin bin)).1.mancala0 +
        (b.make_move_ (FlatIndex.ofBin bin)).1.mancala1 := rfl
    have d2 : b.totalStones = b.binsTotal + b.mancala0 + b.mancala1 := rfl
    rw [hb2]
    omega

end Board

/-- `enum Tree` in the source (named `SearchTree` here, as in the project
description, to avoid clashing with Mathlib): a leaf holds a finished board,
an inner node holds one optional subtree per bin (`Box<[Option<Self>; 6]>`, modelled as a list that
`build` always fills with six slots). -/
inductive SearchTree where
  | TurnOver : Board → SearchTree
  | Continue : List (Option SearchTree) → SearchTree

/-- `SearchTree::build`: try every bin on its own copy of the board; an empty bin
gives an absent slot, a turn-ending move a leaf, a bonus move a recursively
built subtree. -/
def SearchTree.build (b : Board) : SearchTree :=
  .Continue (Bin.ALL.map (fun bin =>
    match h : b.make_move bin with
    | (_, none) => none
    | (b2, some .TurnOver) => some (.TurnOver b2)
    | (b2, some .GoAgain) => some (SearchTree.build b2)))
termination_by b.binsTotal
decreasing_by exact Board.binsTotal_lt_of_goAgain h

mutual

/-- The recursive `helper` of `SearchTree::find_max_paths`: collect one
`(score, path)` pair per `TurnOver` leaf, in preorder, recording the bin
choices from the root.  The source's `Bin::try_from(...).unwrap()` on a slot
position is modelled with a default for the unreachable out-of-range case. -/
def SearchTree.findPaths : SearchTree → List Bin → List (Nat × List Bin)
  | .TurnOver board, path => [(board.mancala0, path)]
  | .Continue slots, path => SearchTree.findPathsList slots 0 path

/-- Walk the slot list of a `Continue` node, keeping track of the slot
position (the `enumerate` of the source). -/
def SearchTree.findPathsList : List (Option SearchTree) → Nat → List Bin → List (Nat × List Bin)
  | [], _, _ => []
  | none :: rest, i, path => SearchTree.findPathsList rest (i + 1) path
  | some t :: rest, i, path =>
    SearchTree.findPaths t (path ++ [(Bin.tryFrom i).getD .A]) ++
      SearchTree.findPathsList rest (i + 1) path

end

/-- The comparator of `find_max_paths`'s `sort_by`, as a "may come before"
boolean: higher amounts first, ties broken by shorter paths first. -/
def pathLE (a b : Nat × List Bin) : Bool :=
  decide (b.1 < a.1) || (decide (a.1 = b.1) && decide (a.2.length ≤ b.2.length))

/-- `SearchTree::find_max_paths`: collect all leaves, then stable-sort by the
comparator. -/
def SearchTree.find_max_paths (t : SearchTree) : List (Nat × List Bin) :=
  (SearchTree.findPaths t []).mergeSort pathLE

mutual

/-- All boards stored in `TurnOver` leaves of a tree. -/
def SearchTree.boards : SearchTree → List Board
  | .TurnOver board => [board]
  | .Continue slots => SearchTree.boardsList slots

/-- All boards stored in `TurnOver` leaves under a slot list. -/
def SearchTree.boardsList : List (Option SearchTree) → List Board
  | [] => []
  | none :: rest => SearchTree.boardsList rest
  | some t :: rest => SearchTree.boards t ++ SearchTree.boardsList rest

end

namespace SearchTree

theorem mem_boardsList {b' : Board} :
    ∀ (l : List (Option SearchTree)),
      b' ∈ SearchTree.boardsList l ↔ ∃ t, some t ∈ l ∧ b' ∈ t.boards
  | [] => by
    show b' ∈ ([] : List Board) ↔ _
    simp
  | none :: rest => by
    show b' ∈ SearchTree.boardsList rest ↔ _
    rw [mem_boardsList rest]
    simp
  | some t :: rest => by
    show b' ∈ t.boards ++ SearchTree.boardsList rest ↔ _
    rw [List.mem_append, mem_boardsList rest]
    constructor
    · rintro (h | ⟨u, hu, hbu⟩)
      · exact ⟨t, by simp, h⟩
      · exact ⟨u, by simp [hu], hbu⟩
    · rintro ⟨u, hu, hbu⟩
      rcases List.mem_cons.1 hu with h | h
      · left
        cases h
        exact hbu
      · right
        exact ⟨u, h, hbu⟩

/-- Every board stored in a leaf of the tree built from `b0` carries exactly
the stones of `b0`: conservation along every branch of the search. -/
theorem totalStones_of_mem_boards_build :
    ∀ (b0 b' : Board), b' ∈ (SearchTree.build b0).boards →
      b'.totalStones = b0.totalStones := by
  intro b0
  induction b0 using SearchTree.build.induct with
  | _ b0 ih =>
    intro b' hb'
    rw [SearchTree.build.eq_def] at hb'
    have hb2 : b' ∈ SearchTree.boardsList (Bin.ALL.map (fun bin =>
        match h : b0.make_move bin with
        | (_, none) => none
        | (b2, some .TurnOver) => some (.TurnOver b2)
        | (b2, some .GoAgain) => some (SearchTree.build b2))) := hb'
    rw [mem_boardsList] at hb2
    obtain ⟨t, ht, hbt⟩ := hb2
    rw [List.mem_map] at ht
    obtain ⟨bin, hbin, hf⟩ := ht
    split at hf
    · exact absurd hf (by simp)
    · rename_i b2 heq
      have ht2 : t = SearchTree.TurnOver b2 := by
        injection hf with hf'
        exact hf'.symm
      subst ht2
      have hb'2 : b' = b2 := by
        have : b' ∈ [b2] := hbt
        simpa using this
      subst hb'2
      have := Board.totalStones_make_move b0 bin
      rw [heq] at this
      exact this
    · rename_i b2 heq
      have ht2 : t = SearchTree.build b2 := by
        injection hf with hf'
        exact hf'.symm
      subst ht2
      have h1 := ih bin b2 heq b' hbt
      have h2 := Board.totalStones_make_move b0 bin
      rw [heq] at h2
      exact h1.trans h2

end SearchTree

theorem pathLE_trans (a b c : Nat × List Bin) (hab : pathLE a b = true)
    (hbc : pathLE b c = true) : pathLE a c = true := by
  simp only [pathLE, Bool.or_eq_true, Bool.and_eq_true, decide_eq_true_eq]
    at hab hbc ⊢
  omega

theorem pathLE_total (a b : Nat × List Bin) : (pathLE a b || pathLE b a) = true := by
  simp only [pathLE, Bool.or_eq_true, Bool.and_eq_true, decide_eq_true_eq]
  omega

/-- How many of `n` one-step sowing advances starting from position `v` drop
a stone at position `w`: the `k`-th step (1-based) drops one stone at
`(v + k) % 13`. -/
def countHits : Nat → Nat → Nat → Nat
  | _, 0, _ => 0
  | v, n + 1, w =>
    (if (v + 1) % 13 = w then 1 else 0) + countHits ((v + 1) % 13) n w

theorem countHits_zero (v w : Nat) : countHits v 0 w = 0 := rfl

theorem countHits_succ (v n w : Nat) :
    countHits v (n + 1) w =
      (if (v + 1) % 13 = w then 1 else 0) + countHits ((v + 1) % 13) n w := rfl

namespace Board

/-- Pointwise effect of the sowing loop: each slot gains one stone per step
that lands on it. -/
theorem getFlat_sow (b : Board) (v : Nat) (n : Nat) (w : Nat) :
    (b.sow v n).1.getFlat w = b.getFlat w + countHits v n w := by
  induction n generalizing b v with
  | zero =>
    rw [sow_zero, countHits_zero]
    exact (Nat.add_zero _).symm
  | succ n ih =>
    show ((b.setFlat ((v + 1) % 13) (b.getFlat ((v + 1) % 13) + 1)).sow
      ((v + 1) % 13) n).1.getFlat w = _
    rw [ih, countHits_succ]
    by_cases hw' : (v + 1) % 13 = w
    · rw [if_pos hw', ← hw', getFlat_setFlat_self b (by omega)]
      omega
    · rw [if_neg hw', getFlat_setFlat_ne b hw']
      omega

end Board

/-- A fuel-bounded version of `Board.make_move_`, used to state termination:
it runs the same classification and chain recursion but gives up (`none`)
when the fuel runs out. -/
def makeMoveFuel : Nat → Board → Nat → Option (Board × MoveResult)
  | 0, _, _ => none
  | fuel + 1, b, v =>
    let p := (b.setFlat v 0).sow v (b.getFlat v)
    match FlatIndex.kind p.2 with
    | some (.TheirBins _) =>
      if 1 < p.1.getFlat p.2 then makeMoveFuel fuel p.1 p.2
      else some (p.1, .TurnOver)
    | some (.MyBins _) =>
      if 1 < p.1.getFlat p.2 then makeMoveFuel fuel p.1 p.2
      else some (p.1.bankOpposite p.2, .TurnOver)
    | some .MyMancala => some (p.1, .GoAgain)
    | none => some (p.1, .TurnOver)

/-- A fuel-bounded version of `SearchTree.build`: builds the same tree,
simulating each move with `makeMoveFuel`, but gives up (`none`) when the fuel
runs out.  Unlike `SearchTree.build` it is structurally recursive, so it can
be evaluated by the kernel on concrete boards. -/
def buildFuel : Nat → Board → Option SearchTree
  | 0, _ => none
  | fuel + 1, b =>
    (Bin.ALL.mapM (fun bin =>
      if b.getFlat (FlatIndex.ofBin bin) = 0 then some none
      else
        match makeMoveFuel (fuel + 1) b (FlatIndex.ofBin bin) with
        | none => none
        | some (b2, .TurnOver) => some (some (SearchTree.TurnOver b2))
        | some (b2, .GoAgain) => (buildFuel fuel b2).map some)).map
      SearchTree.Continue

namespace SearchTree

theorem build_slot_none {b : Board} {bin : Bin} {bb : Board}
    (h : b.make_move bin = (bb, none)) :
    (match h : b.make_move bin with
     | (_, none) => none
     | (b2, some .TurnOver) => some (SearchTree.TurnOver b2)
     | (b2, some .GoAgain) => some (SearchTree.build b2)) =
      (none : Option SearchTree) := by
  split <;> rename_i heq <;> rw [h] at heq <;> simp at heq

theorem build_slot_turnOver {b : Board} {bin : Bin} {bb : Board}
    (h : b.make_move bin = (bb, some .TurnOver)) :
    (match h : b.make_move bin with
     | (_, none) => none
     | (b2, some .TurnOver) => some (SearchTree.TurnOver b2)
     | (b2, some .GoAgain) => some (SearchTree.build b2)) =
      some (SearchTree.TurnOver bb) := by
  split <;> rename_i heq <;> rw [h] at heq
  · simp at heq
  · injection heq with h1 h2
    rw [h1]
  · simp at heq

theorem build_slot_goAgain {b : Board} {bin : Bin} {bb : Board}
    (h : b.make_move bin = (bb, some .GoAgain)) :
    (match h : b.make_move bin with
     | (_, none) => none
     | (b2, some .TurnOver) => some (SearchTree.TurnOver b2)
     | (b2, some .GoAgain) => some (SearchTree.build b2)) =
      some (SearchTree.build bb) := by
  split <;> rename_i heq <;> rw [h] at heq
  · simp at heq
  · simp at heq
  · injection heq with h1 h2
    rw [h1]

end SearchTree

/-- `makeMoveFuel` agrees with `make_move_` as soon as the fuel exceeds the
measure `moveMeasure`: the chain-sowing loop terminates within a bounded
number of chain steps. -/
theorem makeMoveFuel_eq : ∀ (fuel : Nat) (b : Board) (v : Nat),
    b.moveMeasure v < fuel → makeMoveFuel fuel b v = some (b.make_move_ v) := by
  intro fuel
  induction fuel with
  | zero =>
    intro b v h
    omega
  | succ fuel ih =>
    intro b v h
    simp only [makeMoveFuel]
    split <;> rename_i heq
    · by_cases hgt : 1 < ((b.setFlat v 0).sow v (b.getFlat v)).1.getFlat
        ((b.setFlat v 0).sow v (b.getFlat v)).2
      · rw [if_pos hgt, Board.make_move__their_chain heq hgt]
        refine ih _ _ ?_
        have := Board.sow_pair_measure_lt b v _ rfl
          (by have := FlatIndex.kind_theirBins_range heq; omega) hgt
        omega
      · rw [if_neg hgt, Board.make_move__their_end heq hgt]
    · by_cases hgt : 1 < ((b.setFlat v 0).sow v (b.getFlat v)).1.getFlat
        ((b.setFlat v 0).sow v (b.getFlat v)).2
      · rw [if_pos hgt, Board.make_move__my_chain heq hgt]
        refine ih _ _ ?_
        have := Board.sow_pair_measure_lt b v _ rfl
          (by have := FlatIndex.kind_myBins_range heq; omega) hgt
        omega
      · rw [if_neg hgt, Board.make_move__my_end heq hgt]
    · rw [Board.make_move__mancala heq]
    · rw [Board.make_move__none heq]

theorem list_mapM_option {α β : Type} (f : α → Option β) (g : α → β) :
    ∀ l : List α, (∀ a ∈ l, f a = some (g a)) → l.mapM f = some (l.map g) := by
  intro l
  induction l with
  | nil => intro _; rfl
  | cons a l ih =>
    intro h
    rw [List.mapM_cons, List.map_cons]
    rw [h a (List.mem_cons_self a l), ih (fun x hx => h x (List.mem_cons_of_mem a hx))]
    rfl


theorem Board.moveMeasure_le (b : Board) {v : Nat} (hv : v ≤ 5) :
    b.moveMeasure v ≤ 13 * b.binsTotal + 13 := by
  unfold Board.moveMeasure
  have := b.binsTotal_setFlat_bin (v := v) (by omega) (by omega) 0
  unfold storeDist
  omega

/-- `buildFuel` agrees with `SearchTree.build` as soon as the fuel exceeds a
bound computed from the (conserved) total stones and the stones left in the
bins: the whole search terminates. -/
theorem buildFuel_eq : ∀ (fuel : Nat) (b : Board),
    13 * b.totalStones + 13 + b.binsTotal < fuel →
    buildFuel fuel b = some (SearchTree.build b) := by
  intro fuel
  induction fuel with
  | zero =>
    intro b h
    omega
  | succ fuel ih =>
    intro b h
    simp only [buildFuel]
    rw [SearchTree.build.eq_def]
    rw [list_mapM_option _ (fun bin =>
      match h : b.make_move bin with
      | (_, none) => none
      | (b2, some .TurnOver) => some (SearchTree.TurnOver b2)
      | (b2, some .GoAgain) => some (SearchTree.build b2)) Bin.ALL ?_]
    · rfl
    · intro bin _
      show (if b.getFlat (FlatIndex.ofBin bin) = 0 then some none
        else match makeMoveFuel (fuel + 1) b (FlatIndex.ofBin bin) with
        | none => none
        | some (b2, .TurnOver) => some (some (SearchTree.TurnOver b2))
        | some (b2, .GoAgain) => (buildFuel fuel b2).map some) =
        some (match h : b.make_move bin with
        | (_, none) => none
        | (b2, some .TurnOver) => some (SearchTree.TurnOver b2)
        | (b2, some .GoAgain) => some (SearchTree.build b2))
      by_cases h0 : b.getFlat (FlatIndex.ofBin bin) = 0
      · rw [if_pos h0, SearchTree.build_slot_none (Board.make_move_empty b bin h0)]
      · rw [if_neg h0]
        have hmf : makeMoveFuel (fuel + 1) b (FlatIndex.ofBin bin) =
            some (b.make_move_ (FlatIndex.ofBin bin)) := by
          refine makeMoveFuel_eq _ _ _ ?_
          have h1 := b.moveMeasure_le (FlatIndex.ofBin_le bin)
          have h2 : b.totalStones = b.binsTotal + b.mancala0 + b.mancala1 := rfl
          omega
        rw [hmf]
        have hmm := Board.make_move_nonempty b bin h0
        have heta : b.make_move_ (FlatIndex.ofBin bin) =
            ((b.make_move_ (FlatIndex.ofBin bin)).1,
             (b.make_move_ (FlatIndex.ofBin bin)).2) := rfl
        rcases hr : (b.make_move_ (FlatIndex.ofBin bin)).2 with _ | _
        · -- GoAgain
          have hmm2 : b.make_move bin =
              ((b.make_move_ (FlatIndex.ofBin bin)).1, some .GoAgain) := by
            rw [hmm, hr]
          rw [SearchTree.build_slot_goAgain hmm2]
          rw [heta, hr]
          show ((buildFuel fuel (b.make_move_ (FlatIndex.ofBin bin)).1).map some) =
            some (some (SearchTree.build (b.make_move_ (FlatIndex.ofBin bin)).1))
          rw [ih _ (by
            have e1 := Board.totalStones_make_move_ b (FlatIndex.ofBin bin)
            have e2 := Board.binsTotal_lt_of_goAgain hmm2
            omega)]
          rfl
        · -- TurnOver
          have hmm2 : b.make_move bin =
              ((b.make_move_ (FlatIndex.ofBin bin)).1, some .TurnOver) := by
            rw [hmm, hr]
          rw [SearchTree.build_slot_turnOver hmm2]
          rw [heta, hr]

/-- The pickup-and-sow prefix of `Board::make_move_`: empty the slot at `v`
into the hand and sow the stones one step at a time; returns the sown board
and the final index. -/
def Board.sowFrom (b : Board) (v : Nat) : Board × Nat :=
  (b.setFlat v 0).sow v (b.getFlat v)

/-- The slot that `SearchTree.build` computes for one bin on its own copy of
the board. -/
def SearchTree.buildSlot (b : Board) (bin : Bin) : Option SearchTree :=
  match h : b.make_move bin with
  | (_, none) => none
  | (b2, some .TurnOver) => some (SearchTree.TurnOver b2)
  | (b2, some .GoAgain) => some (SearchTree.build b2)

theorem SearchTree.build_eq_slots (b : Board) :
    SearchTree.build b = .Continue (Bin.ALL.map (SearchTree.buildSlot b)) := by
  rw [SearchTree.build.eq_def]
  rfl

theorem SearchTree.buildSlot_none {b : Board} {bin : Bin} {bb : Board}
    (h : b.make_move bin = (bb, none)) :
    SearchTree.buildSlot b bin = none :=
  SearchTree.build_slot_none h

theorem SearchTree.buildSlot_turnOver {b : Board} {bin : Bin} {bb : Board}
    (h : b.make_move bin = (bb, some .TurnOver)) :
    SearchTree.buildSlot b bin = some (SearchTree.TurnOver bb) :=
  SearchTree.build_slot_turnOver h

theorem SearchTree.buildSlot_goAgain {b : Board} {bin : Bin} {bb : Board}
    (h : b.make_move bin = (bb, some .GoAgain)) :
    SearchTree.buildSlot b bin = some (SearchTree.build bb) :=
  SearchTree.build_slot_goAgain h

theorem SearchTree.buildSlot_index (b : Board) (bin : Bin) :
    (Bin.ALL.map (SearchTree.buildSlot b))[bin.toNat]? =
      some (SearchTree.buildSlot b bin) := by
  cases bin <;> rfl

theorem SearchTree.buildSlot_eq_none_iff (b : Board) (bin : Bin) :
    SearchTree.buildSlot b bin = none ↔ b.getFlat (FlatIndex.ofBin bin) = 0 := by
  constructor
  · intro hn
    by_contra h0
    have hmm := Board.make_move_nonempty b bin h0
    rcases hr : (b.make_move_ (FlatIndex.ofBin bin)).2 with _ | _
    · have := SearchTree.buildSlot_goAgain (by rw [hmm, hr])
      rw [this] at hn
      simp at hn
    · have := SearchTree.buildSlot_turnOver (by rw [hmm, hr])
      rw [this] at hn
      simp at hn
  · intro h0
    exact SearchTree.buildSlot_none (Board.make_move_empty b bin h0)

/-- A small test fixture: the current player's bin E holds one stone,
everything else is empty. -/
def testE : Board :=
  ⟨fun j => if j = 0 then ⟨fun i => if i = 4 then 1 else 0, 0⟩
    else ⟨fun _ => 0, 0⟩⟩

def resultE : Board :=
  ⟨fun j => if j = 0 then ⟨fun i => if i = 5 then 1 else 0, 0⟩
    else ⟨fun _ => 0, 0⟩⟩

theorem testE_make_move_ : testE.make_move_ 4 = (resultE, .TurnOver) := by
  have hmf : makeMoveFuel 20 testE 4 = some (testE.make_move_ 4) :=
    makeMoveFuel_eq 20 testE 4 (by decide)
  have h1 : (makeMoveFuel 20 testE 4).getD (testE, .TurnOver) =
      testE.make_move_ 4 := by
    rw [hmf]
    rfl
  have h2 : (makeMoveFuel 20 testE 4).getD (testE, .TurnOver) =
      (resultE, .TurnOver) := by
    refine Prod.ext ?_ ?_
    · decide
    · decide
  rw [← h1, h2]

theorem testE_make_move : testE.make_move .E = (resultE, some .TurnOver) := by
  rw [Board.make_move_nonempty testE .E (by decide)]
  rw [show FlatIndex.ofBin Bin.E = 4 from rfl, testE_make_move_]

theorem testE_build : SearchTree.build testE =
    .Continue [none, none, none, none, some (.TurnOver resultE), none] := by
  rw [SearchTree.build_eq_slots]
  simp only [Bin.ALL, List.map_cons, List.map_nil]
  rw [SearchTree.buildSlot_none (Board.make_move_empty _ .A (by decide)),
    SearchTree.buildSlot_none (Board.make_move_empty _ .B (by decide)),
    SearchTree.buildSlot_none (Board.make_move_empty _ .C (by decide)),
    SearchTree.buildSlot_none (Board.make_move_empty _ .D (by decide)),
    SearchTree.buildSlot_turnOver testE_make_move,
    SearchTree.buildSlot_none (Board.make_move_empty _ .F (by decide))]

theorem mem_boards_testE : resultE ∈ (SearchTree.build testE).boards := by
  rw [testE_build]
  decide

/-- On the all-zero board every slot of the built tree is absent. -/
theorem build_zero : SearchTree.build (Board.new 0) =
    .Continue [none, none, none, none, none, none] := by
  rw [SearchTree.build_eq_slots]
  simp only [Bin.ALL, List.map_cons, List.map_nil]
  rw [SearchTree.buildSlot_none (Board.make_move_empty _ .A (by decide)),
    SearchTree.buildSlot_none (Board.make_move_empty _ .B (by decide)),
    SearchTree.buildSlot_none (Board.make_move_empty _ .C (by decide)),
    SearchTree.buildSlot_none (Board.make_move_empty _ .D (by decide)),
    SearchTree.buildSlot_none (Board.make_move_empty _ .E (by decide)),
    SearchTree.buildSlot_none (Board.make_move_empty _ .F (by decide))]

/-- The ranked output of the search on the all-zero board is empty: there is
no `TurnOver` leaf at all, hence no (score, path) pair. -/
theorem find_max_paths_zero :
    (SearchTree.build (Board.new 0)).find_max_paths = [] := by
  rw [build_zero]
  show (SearchTree.findPaths _ []).mergeSort pathLE = []
  rw [show SearchTree.findPaths
    (.Continue [none, none, none, none, none, none]) [] =
    ([] : List (Nat × List Bin)) from by decide]
  exact List.mergeSort_nil

/-- C3: stones are conserved: by every single move of the simulator, across
every board stored in a leaf of a search tree, and the standard start (4 per
bin, empty stores) carries 48 stones. -/
theorem stones_conserved :
    (∀ (b : Board) (bin : Bin),
      (b.make_move bin).1.totalStones = b.totalStones) ∧
    (∀ (b0 b' : Board), b' ∈ (SearchTree.build b0).boards →
      b'.totalStones = b0.totalStones) ∧
    (Board.new 4).totalStones = 48 :=
  ⟨Board.totalStones_make_move, SearchTree.totalStones_of_mem_boards_build,
    by decide⟩

theorem stones_conserved_witness :
    (testE.make_move .E).1.totalStones = testE.totalStones ∧
    resultE.totalStones = testE.totalStones :=
  ⟨stones_conserved.1 testE .E,
    stones_conserved.2.1 testE resultE mem_boards_testE⟩

/-- C4: the public move entry reports "no legal move" (`none`) exactly when
the chosen bin is empty, leaving the board unchanged in that case, and
returns an outcome whenever the bin is non-empty. -/
theorem make_move_contract (b : Board) (bin : Bin) :
    ((b.make_move bin).2 = none ↔ b.getFlat (FlatIndex.ofBin bin) = 0) ∧
    (b.getFlat (FlatIndex.ofBin bin) = 0 → (b.make_move bin).1 = b) ∧
    (b.getFlat (FlatIndex.ofBin bin) ≠ 0 → ((b.make_move bin).2).isSome) := by
  refine ⟨⟨?_, ?_⟩, ?_, ?_⟩
  · intro hn
    by_contra h0
    rw [Board.make_move_nonempty b bin h0] at hn
    simp at hn
  · intro h0
    rw [Board.make_move_empty b bin h0]
  · intro h0
    rw [Board.make_move_empty b bin h0]
  · intro h0
    rw [Board.make_move_nonempty b bin h0]
    rfl

theorem make_move_contract_witness :
    (((Board.new 1).make_move Bin.A).2 = none ↔
      (Board.new 1).getFlat (FlatIndex.ofBin Bin.A) = 0) ∧
    ((Board.new 1).getFlat (FlatIndex.ofBin Bin.A) = 0 →
      ((Board.new 1).make_move Bin.A).1 = Board.new 1) ∧
    ((Board.new 1).getFlat (FlatIndex.ofBin Bin.A) ≠ 0 →
      (((Board.new 1).make_move Bin.A).2).isSome) :=
  make_move_contract (Board.new 1) Bin.A

/-- C6: the ranker returns the collected (score, path) pairs — one per
`TurnOver` leaf, with the leaf board's current-player store as score and the
bin choices from the root as path — as a permutation of the preorder
collection, and sorted so that adjacent scores never increase and, among
equal scores, path lengths never decrease. -/
theorem find_max_paths_ranked (t : SearchTree) :
    (t.find_max_paths).Perm (t.findPaths []) ∧
    List.Chain' (fun a b => b.1 ≤ a.1 ∧ (a.1 = b.1 → a.2.length ≤ b.2.length))
      t.find_max_paths := by
  constructor
  · exact List.mergeSort_perm _ _
  · refine List.Pairwise.chain' ?_
    refine List.Pairwise.imp ?_
      (List.sorted_mergeSort pathLE_trans pathLE_total (t.findPaths []))
    intro a b hab
    simp only [pathLE, Bool.or_eq_true, Bool.and_eq_true,
      decide_eq_true_eq] at hab
    constructor
    · omega
    · intro he
      rcases hab with h1 | ⟨h2, h3⟩
      · omega
      · exact h3

theorem find_max_paths_ranked_witness :
    ((SearchTree.TurnOver (Board.new 0)).find_max_paths).Perm
      ((SearchTree.TurnOver (Board.new 0)).findPaths []) ∧
    List.Chain' (fun a b => b.1 ≤ a.1 ∧ (a.1 = b.1 → a.2.length ≤ b.2.length))
      (SearchTree.TurnOver (Board.new 0)).find_max_paths :=
  find_max_paths_ranked (SearchTree.TurnOver (Board.new 0))

/-- C7: both the chain-sowing of a single move and the recursive expansion of
the search tree terminate: the fuelled versions reach the total functions'
results once the fuel exceeds an explicit bound computed from the stone
counts, which never increase. -/
theorem search_terminates :
    (∀ (fuel : Nat) (b : Board) (v : Nat), b.moveMeasure v < fuel →
      makeMoveFuel fuel b v = some (b.make_move_ v)) ∧
    (∀ (fuel : Nat) (b : Board), 13 * b.totalStones + 13 + b.binsTotal < fuel →
      buildFuel fuel b = some (SearchTree.build b)) :=
  ⟨makeMoveFuel_eq, buildFuel_eq⟩

theorem search_terminates_witness :
    makeMoveFuel 20 testE 4 = some (testE.make_move_ 4) ∧
    buildFuel 40 testE = some (SearchTree.build testE) :=
  ⟨search_terminates.1 20 testE 4 (by decide),
    search_terminates.2 40 testE (by decide)⟩

/-- C8 (counterexample): on the all-zero start the ranked output is empty, so
it does not contain exactly one terminal outcome as claimed. -/
theorem zero_board_not_single_outcome :
    (SearchTree.build (Board.new 0)).find_max_paths.length ≠ 1 := by
  rw [find_max_paths_zero]
  decide

/-- C8 (amended): the all-zero start is handled without error: the search
tree is a single branching node with all six slots absent (no legal first
move), and the ranked output is empty — it contains no terminal outcome. -/
theorem zero_board_graceful :
    (SearchTree.build (Board.new 0)).find_max_paths = [] ∧
    SearchTree.build (Board.new 0) =
      .Continue [none, none, none, none, none, none] :=
  ⟨find_max_paths_zero, build_zero⟩

/-- C9: a flat index built from a bin stays in `0..=12` under any number of
`step`s, so the classification function never reaches its unreachable arm
and every board access through it is within bounds. -/
theorem flatIndex_always_in_range (bin : Bin) (k : Nat) :
    FlatIndex.step^[k] (FlatIndex.ofBin bin) ≤ 12 ∧
    (FlatIndex.kind (FlatIndex.step^[k] (FlatIndex.ofBin bin))).isSome := by
  have h12 : FlatIndex.step^[k] (FlatIndex.ofBin bin) ≤ 12 := by
    cases k with
    | zero =>
      simp only [Function.iterate_zero_apply]
      have := FlatIndex.ofBin_le bin
      omega
    | succ k =>
      rw [Function.iterate_succ_apply']
      unfold FlatIndex.step
      omega
  exact ⟨h12, FlatIndex.kind_isSome h12⟩

theorem flatIndex_always_in_range_witness :
    FlatIndex.step^[3] (FlatIndex.ofBin Bin.A) ≤ 12 ∧
    (FlatIndex.kind (FlatIndex.step^[3] (FlatIndex.ofBin Bin.A))).isSome :=
  flatIndex_always_in_range Bin.A 3

/-- C10: applying a move — chain sowing and capture included — never changes
the opponent's store `sides[1].mancala`. -/
theorem make_move_preserves_opponent_store (b : Board) (bin : Bin) :
    (b.make_move bin).1.mancala1 = b.mancala1 := by
  by_cases h : b.getFlat (FlatIndex.ofBin bin) = 0
  · rw [Board.make_move_empty b bin h]
  · rw [Board.make_move_nonempty b bin h]
    exact Board.mancala1_make_move_ b _

theorem make_move_preserves_opponent_store_witness :
    (testE.make_move .E).1.mancala1 = testE.mancala1 :=
  make_move_preserves_opponent_store testE .E

/-- C1: the simulator first removes all `n` stones from the chosen bin
(setting it to 0), then performs `n` steps, each advancing the position by
one modulo 13 and incrementing the count there by one (`countHits` counts the
drops per slot, the final index is `(v + n) % 13`); and whenever the final
stone lands in a bin — either side, i.e. a position other than the store at
6 — whose count is then greater than one, the simulator recursively reapplies
the whole procedure from that landing position. -/
theorem make_move__sows_and_chains (b : Board) (bin : Bin) (v : Nat)
    (hv : v = FlatIndex.ofBin bin) (h : b.getFlat v ≠ 0) :
    (b.sowFrom v).2 = (v + b.getFlat v) % 13 ∧
    (∀ w : Nat, (b.sowFrom v).1.getFlat w =
      (b.setFlat v 0).getFlat w + countHits v (b.getFlat v) w) ∧
    ((b.sowFrom v).2 ≠ 6 → 1 < (b.sowFrom v).1.getFlat (b.sowFrom v).2 →
      b.make_move_ v = (b.sowFrom v).1.make_move_ (b.sowFrom v).2) := by
  subst hv
  refine ⟨Board.sow_snd _ _ (Nat.one_le_iff_ne_zero.2 h),
    fun w => Board.getFlat_sow _ _ _ w, ?_⟩
  intro h6 hgt
  have h12 : (b.sowFrom (FlatIndex.ofBin bin)).2 ≤ 12 :=
    Board.sow_snd_le _ _ (Nat.one_le_iff_ne_zero.2 h)
  rcases (by omega : (b.sowFrom (FlatIndex.ofBin bin)).2 ≤ 5 ∨
      (7 ≤ (b.sowFrom (FlatIndex.ofBin bin)).2 ∧
        (b.sowFrom (FlatIndex.ofBin bin)).2 ≤ 12)) with h5 | ⟨h7, h12'⟩
  · exact Board.make_move__my_chain (FlatIndex.kind_lt6 h5) hgt
  · exact Board.make_move__their_chain (FlatIndex.kind_their h7 h12') hgt

theorem make_move__sows_and_chains_witness :
    (4 = FlatIndex.ofBin Bin.E) ∧ testE.getFlat 4 ≠ 0 ∧
    ((testE.sowFrom 4).2 = (4 + testE.getFlat 4) % 13 ∧
    (∀ w : Nat, (testE.sowFrom 4).1.getFlat w =
      (testE.setFlat 4 0).getFlat w + countHits 4 (testE.getFlat 4) w) ∧
    ((testE.sowFrom 4).2 ≠ 6 →
      1 < (testE.sowFrom 4).1.getFlat (testE.sowFrom 4).2 →
      testE.make_move_ 4 =
        (testE.sowFrom 4).1.make_move_ (testE.sowFrom 4).2)) :=
  ⟨rfl, by decide, make_move__sows_and_chains testE .E 4 rfl (by decide)⟩

/-- C2: the outcome is classified by the final landing slot alone: the
current player's store (position 6) grants a bonus move; an opponent bin
whose count is now exactly 1 ends the turn with no capture; an own bin whose
count is now exactly 1 ends the turn and additionally moves the whole
contents of the opposite bin (position 12 − pos) into the current player's
store, emptying that bin, while the landing bin keeps its single stone. -/
theorem make_move__classifies_landing (b : Board) (bin : Bin) (v : Nat)
    (hv : v = FlatIndex.ofBin bin) (h : b.getFlat v ≠ 0) :
    ((b.sowFrom v).2 = 6 → b.make_move_ v = ((b.sowFrom v).1, .GoAgain)) ∧
    (7 ≤ (b.sowFrom v).2 → (b.sowFrom v).2 ≤ 12 →
      (b.sowFrom v).1.getFlat (b.sowFrom v).2 = 1 →
      b.make_move_ v = ((b.sowFrom v).1, .TurnOver)) ∧
    ((b.sowFrom v).2 ≤ 5 → (b.sowFrom v).1.getFlat (b.sowFrom v).2 = 1 →
      b.make_move_ v =
        ((b.sowFrom v).1.bankOpposite (b.sowFrom v).2, .TurnOver) ∧
      ((b.sowFrom v).1.bankOpposite (b.sowFrom v).2).getFlat
        (FlatIndex.opposite (b.sowFrom v).2) = 0 ∧
      ((b.sowFrom v).1.bankOpposite (b.sowFrom v).2).mancala0 =
        (b.sowFrom v).1.mancala0 +
          (b.sowFrom v).1.getFlat (FlatIndex.opposite (b.sowFrom v).2) ∧
      ((b.sowFrom v).1.bankOpposite (b.sowFrom v).2).getFlat (b.sowFrom v).2
        = 1) := by
  subst hv
  refine ⟨?_, ?_, ?_⟩
  · intro h6
    have h6' : ((b.setFlat (FlatIndex.ofBin bin) 0).sow (FlatIndex.ofBin bin)
        (b.getFlat (FlatIndex.ofBin bin))).2 = 6 := h6
    exact Board.make_move__mancala (by rw [h6']; rfl)
  · intro h7 h12 h1
    have h1' : ((b.setFlat (FlatIndex.ofBin bin) 0).sow (FlatIndex.ofBin bin)
        (b.getFlat (FlatIndex.ofBin bin))).1.getFlat
        ((b.setFlat (FlatIndex.ofBin bin) 0).sow (FlatIndex.ofBin bin)
          (b.getFlat (FlatIndex.ofBin bin))).2 = 1 := h1
    exact Board.make_move__their_end (FlatIndex.kind_their h7 h12) (by omega)
  · intro h5 h1
    have h1' : ((b.setFlat (FlatIndex.ofBin bin) 0).sow (FlatIndex.ofBin bin)
        (b.getFlat (FlatIndex.ofBin bin))).1.getFlat
        ((b.setFlat (FlatIndex.ofBin bin) 0).sow (FlatIndex.ofBin bin)
          (b.getFlat (FlatIndex.ofBin bin))).2 = 1 := h1
    exact ⟨Board.make_move__my_end (FlatIndex.kind_lt6 h5) (by omega),
      Board.getFlat_bankOpposite_opp _ h5,
      Board.mancala0_bankOpposite _ h5,
      (Board.getFlat_bankOpposite_lt6 _ h5 h5).trans h1⟩

theorem make_move__classifies_landing_witness :
    (4 = FlatIndex.ofBin Bin.E) ∧ testE.getFlat 4 ≠ 0 ∧
    (((testE.sowFrom 4).2 = 6 →
      testE.make_move_ 4 = ((testE.sowFrom 4).1, .GoAgain)) ∧
    (7 ≤ (testE.sowFrom 4).2 → (testE.sowFrom 4).2 ≤ 12 →
      (testE.sowFrom 4).1.getFlat (testE.sowFrom 4).2 = 1 →
      testE.make_move_ 4 = ((testE.sowFrom 4).1, .TurnOver)) ∧
    ((testE.sowFrom 4).2 ≤ 5 →
      (testE.sowFrom 4).1.getFlat (testE.sowFrom 4).2 = 1 →
      testE.make_move_ 4 =
        ((testE.sowFrom 4).1.bankOpposite (testE.sowFrom 4).2, .TurnOver) ∧
      ((testE.sowFrom 4).1.bankOpposite (testE.sowFrom 4).2).getFlat
        (FlatIndex.opposite (testE.sowFrom 4).2) = 0 ∧
      ((testE.sowFrom 4).1.bankOpposite (testE.sowFrom 4).2).mancala0 =
        (testE.sowFrom 4).1.mancala0 +
          (testE.sowFrom 4).1.getFlat
            (FlatIndex.opposite (testE.sowFrom 4).2) ∧
      ((testE.sowFrom 4).1.bankOpposite (testE.sowFrom 4).2).getFlat
        (testE.sowFrom 4).2 = 1)) :=
  ⟨rfl, by decide, make_move__classifies_landing testE .E 4 rfl (by decide)⟩

/-- C5: for every board the tree builder produces a branching node with one
slot per bin, each computed from the move simulator on its own copy of the
board: the slot for bin `b` is absent exactly when that bin is empty, holds a
`TurnOver` leaf with the resulting board when the move ends the turn, and the
tree built recursively from the resulting board when the move grants a
bonus. -/
theorem build_slots (b : Board) :
    SearchTree.build b = .Continue (Bin.ALL.map (SearchTree.buildSlot b)) ∧
    ∀ bin : Bin,
      ((Bin.ALL.map (SearchTree.buildSlot b))[bin.toNat]? =
        some (SearchTree.buildSlot b bin)) ∧
      (SearchTree.buildSlot b bin = none ↔
        b.getFlat (FlatIndex.ofBin bin) = 0) ∧
      (∀ b2, b.make_move bin = (b2, some .TurnOver) →
        SearchTree.buildSlot b bin = some (SearchTree.TurnOver b2)) ∧
      (∀ b2, b.make_move bin = (b2, some .GoAgain) →
        SearchTree.buildSlot b bin = some (SearchTree.build b2)) :=
  ⟨SearchTree.build_eq_slots b, fun bin =>
    ⟨SearchTree.buildSlot_index b bin, SearchTree.buildSlot_eq_none_iff b bin,
      fun _ h => SearchTree.buildSlot_turnOver h,
      fun _ h => SearchTree.buildSlot_goAgain h⟩⟩

theorem build_slots_witness :
    SearchTree.buildSlot testE Bin.E = some (SearchTree.TurnOver resultE) :=
  ((build_slots testE).2 Bin.E).2.2.1 resultE testE_make_move
